import Mathlib

set_option maxRecDepth 8000
set_option maxHeartbeats 3200000

unseal Rat.add Rat.sub Rat.mul Rat.inv

/-!
# Verification of the PGMax inference engine specification

The repository ships the high-level usage of the PGMax inference engine
(example notebooks building factor graphs and running BP / SDLP inference)
while the engine itself lives in the `pgmax` package.  The engine is
therefore modelled here from the specification: a flat factor-graph
representation, a message arena, the enumerated factor-to-variable and
variable-to-factor kernels, the damped synchronous BP driver, MAP decoding,
energy computation, the logical OR kernel, the pairwise kernel with its
temperature-indexed reduction, and the smoothed dual LP bounds.

Messages and potentials are exact numbers in a linear ordered field
(instantiated at `ℚ` for concrete evaluation and at `ℝ` where the
log-sum-exp reduction is needed), standing for the log-domain floating
point arrays of the implementation.
-/

section Engine

variable {α : Type} [LinearOrderedField α]

/-- Modelled from the spec: the flat graph representation (FGR) together with
the per-run constants.  Variables are dense ids `Fin numVars`, each with
`numStates v + 1` discrete states; factors are dense ids `Fin numFactors`,
each connecting an ordered tuple of `arity f` variables (`var f`) and
carrying a log-potential table `pot f` over the Cartesian product of the
connected variables' states; `evid` is the per-variable log-domain
evidence. -/
structure FactorGraph (α : Type) where
  numVars : ℕ
  numFactors : ℕ
  arity : Fin numFactors → ℕ
  numStates : Fin numVars → ℕ
  var : (f : Fin numFactors) → Fin (arity f) → Fin numVars
  pot : (f : Fin numFactors) → ((i : Fin (arity f)) → Fin (numStates (var f i) + 1)) → α
  evid : (v : Fin numVars) → Fin (numStates v + 1) → α

/-- A configuration of the variables connected to factor `f`: one state per slot. -/
abbrev Cfg {α : Type} (G : FactorGraph α) (f : Fin G.numFactors) : Type :=
  (i : Fin (G.arity f)) → Fin (G.numStates (G.var f i) + 1)

/-- One flat family of messages: for every edge `(f, i)` a log-domain vector
over the states of the variable at that slot. -/
abbrev Msgs {α : Type} (G : FactorGraph α) : Type :=
  (f : Fin G.numFactors) → (i : Fin (G.arity f)) → Fin (G.numStates (G.var f i) + 1) → α

/-- An edge of the factor graph: a factor together with a slot. -/
abbrev Edge {α : Type} (G : FactorGraph α) : Type :=
  Σ f : Fin G.numFactors, Fin (G.arity f)

/-- A joint assignment: one state per variable. -/
abbrev Assignment {α : Type} (G : FactorGraph α) : Type :=
  (v : Fin G.numVars) → Fin (G.numStates v + 1)

/-- Modelled from the spec: the message arena, the mutable numeric state of
one inference run, holding the factor-to-variable and variable-to-factor
message arrays. -/
structure Arena {α : Type} (G : FactorGraph α) where
  f2v : Msgs G
  v2f : Msgs G

instance sliceNonempty (G : FactorGraph α) (f : Fin G.numFactors) (i : Fin (G.arity f))
    (x : Fin (G.numStates (G.var f i) + 1)) : Nonempty {c : Cfg G f // c i = x} :=
  ⟨⟨fun j => if h : j = i then Fin.cast (by rw [h]) x else 0, by simp [Fin.ext_iff]⟩⟩

/-- Modelled from the spec: the reduction used by the factor kernels, as an
abstract operation on finite nonempty index types.  The specification fixes
it to the max-marginal reduction at temperature `0` and to the temperature-`T`
log-sum-exp at `T > 0`; the engine is parametric in it so that the driver
theorems cover every temperature. -/
structure Reducer (α : Type) where
  red : (ι : Type) → Fintype ι → Nonempty ι → (ι → α) → α

/-- The temperature-`0` (max-product) reduction. -/
def maxRed (α : Type) [LinearOrder α] : Reducer α :=
  ⟨fun ι ft ne g => @Finset.sup' α ι _ (@Finset.univ ι ft) (@Finset.univ_nonempty ι ft ne) g⟩

/-- A reducer is translation equivariant when shifting its input by a constant
shifts its output by the same constant; both the max and the log-sum-exp
reductions have this property. -/
def Equivariant (R : Reducer α) : Prop :=
  ∀ (ι : Type) (ft : Fintype ι) (ne : Nonempty ι) (g : ι → α) (c : α),
    R.red ι ft ne (fun z => g z + c) = R.red ι ft ne g + c

/-- Modelled from the spec: the enumerated factor-to-variable kernel.  For
factor `f` and outgoing slot `i`, the message at state `x` reduces, over the
configurations `c` with `c i = x`, the configuration score
`pot f c + Σ_j v2f_j (c j)` minus the slot's own incoming message at `x`. -/
def f2vKernel {G : FactorGraph α} (R : Reducer α) (m : Msgs G) (f : Fin G.numFactors)
    (i : Fin (G.arity f)) (x : Fin (G.numStates (G.var f i) + 1)) : α :=
  R.red {c : Cfg G f // c i = x} inferInstance inferInstance
    (fun c => (G.pot f c.1 + ∑ j, m f j (c.1 j)) - m f i x)

/-- Modelled from the spec: the belief of variable `v`, its evidence plus the
sum of the incoming factor-to-variable messages over all incident edges. -/
def belief {G : FactorGraph α} (m : Msgs G) (v : Fin G.numVars)
    (x : Fin (G.numStates v + 1)) : α :=
  G.evid v x + ∑ e : Edge G,
    (if h : G.var e.1 e.2 = v then m e.1 e.2 (Fin.cast (by rw [h]) x) else 0)

/-- The damped factor-to-variable half of one synchronous BP iteration: every
read goes to the incoming `v2f` messages of the supplied arena, i.e. to the
state at the end of the previous iteration. -/
def stepF2v {G : FactorGraph α} (R : Reducer α) (d : α) (s : Arena G) : Msgs G :=
  fun f i x => (1 - d) * f2vKernel R s.v2f f i x + d * s.f2v f i x

/-- Modelled from the spec: one synchronous BP iteration — factor-to-variable
updates for all groups first, then the global variable-to-factor update
`v2f_e = belief − f2v_e`, each stored with damping
`new = (1 − d) * computed + d * old`. -/
def step {G : FactorGraph α} (R : Reducer α) (d : α) (s : Arena G) : Arena G :=
  ⟨stepF2v R d s,
   fun f i x =>
     (1 - d) * (belief (stepF2v R d s) (G.var f i) x - stepF2v R d s f i x)
       + d * s.v2f f i x⟩

/-- Modelled from the spec: the BP driver `run`, a fixed number of strictly
sequential synchronous iterations. -/
def run {G : FactorGraph α} (R : Reducer α) (d : α) (n : ℕ) (s : Arena G) : Arena G :=
  match n with
  | 0 => s
  | k + 1 => run R d k (step R d s)

/-- Modelled from the spec: `init` zero-initializes both message arrays (the
evidence and log-potentials live in the graph record). -/
def initArena (G : FactorGraph α) : Arena G :=
  ⟨fun _ _ _ => 0, fun _ _ _ => 0⟩

/-- The least index attaining the maximum of `g`: per-variable argmax with the
deterministic lowest-state-index tie-break of the spec. -/
def argmaxLow {β : Type} [LinearOrder β] {n : ℕ} (g : Fin (n + 1) → β) : Fin (n + 1) :=
  (Finset.univ.filter fun x => ∀ y, g y ≤ g x).min' (by
    obtain ⟨b, _, hb⟩ := Finset.exists_max_image Finset.univ g ⟨0, Finset.mem_univ 0⟩
    exact ⟨b, Finset.mem_filter.2 ⟨Finset.mem_univ b, fun y => hb y (Finset.mem_univ y)⟩⟩)

/-- Modelled from the spec: `get_beliefs` reads the per-variable beliefs from
the arena. -/
def getBeliefs {G : FactorGraph α} (s : Arena G) :
    (v : Fin G.numVars) → Fin (G.numStates v + 1) → α :=
  fun v x => belief s.f2v v x

/-- Modelled from the spec: `decode_map_states`, the per-variable argmax of
beliefs with the lowest-index tie-break. -/
def decodeMapStates {G : FactorGraph α} (b : (v : Fin G.numVars) → Fin (G.numStates v + 1) → α) :
    Assignment G :=
  fun v => argmaxLow (b v)

/-- The scalar energy of a decoding as the spec words it: the negation of the
sum of the selected evidence entries and of each factor's log-potential at
the joint assignment. -/
def energyOf {G : FactorGraph α} (dec : Assignment G) : α :=
  -((∑ v, G.evid v (dec v)) + ∑ f, G.pot f (fun i => dec (G.var f i)))

/-- Modelled from the spec: `compute_energy` returns the scalar energy
together with the per-variable and per-factor energy breakdowns, as the tuple
the callers index with `[0]`. -/
def computeEnergy {G : FactorGraph α} (dec : Assignment G) :
    α × ((Fin G.numVars → α) × (Fin G.numFactors → α)) :=
  (-((∑ v, G.evid v (dec v)) + ∑ f, G.pot f (fun i => dec (G.var f i))),
   fun v => G.evid v (dec v),
   fun f => G.pot f (fun i => dec (G.var f i)))

/-- Adding the constant `c` to every entry of the single `v2f` message of
edge `e0`, leaving everything else unchanged. -/
def bumpV2f {G : FactorGraph α} (e0 : Edge G) (c : α) (s : Arena G) : Arena G :=
  ⟨s.f2v, fun f i x => s.v2f f i x + (if (⟨f, i⟩ : Edge G) = e0 then c else 0)⟩

/-- A family of per-edge constants, the additive shifts the message
equivalence classes quotient by. -/
abbrev EdgeConst (G : FactorGraph α) : Type :=
  (f : Fin G.numFactors) → Fin (G.arity f) → α

/-- An arena whose messages differ from those of `s` by one additive constant
per edge (`φ` on the `f2v` side, `ψ` on the `v2f` side). -/
def shiftA {G : FactorGraph α} (φ ψ : (f : Fin G.numFactors) → Fin (G.arity f) → α)
    (s : Arena G) : Arena G :=
  ⟨fun f i x => s.f2v f i x + φ f i, fun f i x => s.v2f f i x + ψ f i⟩

/-- The sum of a per-edge constant over the edges incident to variable `v`. -/
def edgeSum {G : FactorGraph α} (φ : (f : Fin G.numFactors) → Fin (G.arity f) → α)
    (v : Fin G.numVars) : α :=
  ∑ e : Edge G, (if G.var e.1 e.2 = v then φ e.1 e.2 else 0)

/-- The per-edge constant by which the damped factor-to-variable messages of
one iteration move when the incoming messages are shifted by `φ` (factor side)
and `ψ` (variable side). -/
def shiftedF2v {G : FactorGraph α} (d : α) (φ ψ : EdgeConst G) : EdgeConst G :=
  fun f i => (1 - d) * ((∑ j, ψ f j) - ψ f i) + d * φ f i

/-- The per-edge constant by which the damped variable-to-factor messages of
one iteration move under the same shift. -/
def shiftedV2f {G : FactorGraph α} (d : α) (φ ψ : EdgeConst G) : EdgeConst G :=
  fun f i =>
    (1 - d) * (edgeSum (shiftedF2v d φ ψ) (G.var f i) - shiftedF2v d φ ψ f i) + d * ψ f i

/-- Modelled from the spec: the error taxonomy of `run`. -/
inductive BPError : Type where
  | badTemperature : BPError
  | badDamping : BPError
deriving DecidableEq

/-- Modelled from the spec: the checked entry point of the BP driver.  The
temperature selects the reduction (`redOf`); a negative temperature raises
`BadTemperature` and a damping outside `[0, 1)` raises `BadDamping`, both
before any message update, so that a failing call leaves no mutated state. -/
def runBP {G : FactorGraph α} (redOf : α → Reducer α) (T d : α) (n : ℕ) (s : Arena G) :
    Except BPError (Arena G) :=
  if T < 0 then Except.error BPError.badTemperature
  else if d < 0 ∨ 1 ≤ d then Except.error BPError.badDamping
  else Except.ok (run (redOf T) d n s)

/-- The notebooks' calling pattern: a first `run` from an arena whose result
is discarded, then a second `run` from the same arena value. -/
def runTwiceDiscardFirst {G : FactorGraph α} (R : Reducer α) (d : α) (n1 n2 : ℕ)
    (s : Arena G) : Arena G :=
  let _first := run R d n1 s
  run R d n2 s

end Engine

section Chain

/-- The two-variable chain of the spec's first end-to-end scenario: binary
variables `a, b`, one pairwise factor with log-potential `[[1, -1], [-1, 1]]`
(compiled, as in the engine, to an enumerated factor over the four
configurations), evidence `a = [0.1, 0]` and `b = [0, 0.2]`. -/
def chainGraph : FactorGraph ℚ where
  numVars := 2
  numFactors := 1
  arity := fun _ => 2
  numStates := fun _ => 1
  var := fun _ i => i
  pot := fun _ c => ![![1, -1], ![-1, 1]] (c 0) (c 1)
  evid := fun v => ![![1/10, 0], ![0, 1/5]] v

/-- The chain arena after one BP iteration from the zero initialization. -/
def chainS1 : Arena chainGraph :=
  ⟨fun _ i x => ![![1, 1], ![1, 1]] i x, fun _ i x => ![![1/10, 0], ![0, 1/5]] i x⟩

/-- The chain arena after two (or more) BP iterations: the exact fixed point. -/
def chainS2 : Arena chainGraph :=
  ⟨fun _ i x => ![![1, 6/5], ![11/10, 1]] i x, fun _ i x => ![![1/10, 0], ![0, 1/5]] i x⟩

end Chain

section ORKernel

variable {α : Type} [LinearOrderedField α]

/-- The logical OR of a tuple of parent states, as the child state it forces. -/
def orOf {n : ℕ} (p : Fin (n + 1) → Bool) : Fin 2 :=
  if ∃ i, p i = true then 1 else 0

set_option linter.unusedVariables false in
/-- Modelled from the spec: the specialized OR-factor child-side "off"
message at temperature 0, the parents' off log-mass `A = Σ_i m_i^0` (the
kernel receives both message components even though only `m0` enters). -/
def orSpecChildOff {n : ℕ} (m0 m1 : Fin (n + 1) → α) : α :=
  ∑ i, m0 i

/-- Modelled from the spec: the specialized OR-factor child-side "on" message
at temperature 0, `A + softplus_0 (L) = A + max 0 (max_i d_i)` with
`d_i = m_i^1 − m_i^0`. -/
def orSpecChildOn {n : ℕ} (m0 m1 : Fin (n + 1) → α) : α :=
  (∑ i, m0 i) + max 0 (Finset.univ.sup' Finset.univ_nonempty (fun i => m1 i - m0 i))

/-- Modelled from the spec: the generic enumerated kernel at temperature 0 on
the OR factor's `2^(n+1)`-row table.  Rows whose child state differs from the
OR of the parents carry log-potential `−∞` and are never attained, so the
max-reduction for the child message at state `b` ranges over the parent
configurations with OR equal to `b`; each row scores the incoming parent
messages plus the child's own message, which the kernel subtracts back. -/
def orEnumChild {n : ℕ} (m0 m1 : Fin (n + 1) → α) (mc : Fin 2 → α) (b : Fin 2) : α :=
  (Finset.univ.filter fun p : Fin (n + 1) → Bool => orOf p = b).sup'
    (by
      refine ⟨fun _ => b == 1, Finset.mem_filter.2 ⟨Finset.mem_univ _, ?_⟩⟩
      fin_cases b <;> simp [orOf])
    (fun p => ((∑ i, if p i then m1 i else m0 i) + mc b) - mc b)

end ORKernel

noncomputable section RealKernels

instance pairSliceNonempty0 (k1 k2 : ℕ) (a : Fin (k1 + 1)) :
    Nonempty {c : Fin (k1 + 1) × Fin (k2 + 1) // c.1 = a} :=
  ⟨⟨(a, 0), rfl⟩⟩

instance pairSliceNonempty1 (k1 k2 : ℕ) (b : Fin (k2 + 1)) :
    Nonempty {c : Fin (k1 + 1) × Fin (k2 + 1) // c.2 = b} :=
  ⟨⟨(0, b), rfl⟩⟩

/-- Modelled from the spec: the temperature-indexed reduction over a finite
nonempty index set — the max-marginal reduction at temperature 0 and the
temperature-`T` log-sum-exp `T · log Σ exp (g i / T)` otherwise. -/
def reduceT (T : ℝ) {ι : Type} [Fintype ι] [Nonempty ι] (g : ι → ℝ) : ℝ :=
  if T = 0 then Finset.univ.sup' Finset.univ_nonempty g
  else T * Real.log (∑ i, Real.exp (g i / T))

/-- Modelled from the spec: the factor-to-variable kernel of a pairwise
factor towards its first variable, as the enumerated kernel over the
`(k₁+1) × (k₂+1)` configurations: the reduction at state `a` ranges over the
configurations whose first component is `a` and scores
`log_pot + v2f_0 + v2f_1` minus the first variable's own message. -/
def pairwiseF2v0 (T : ℝ) {k1 k2 : ℕ} (logpot : Fin (k1 + 1) → Fin (k2 + 1) → ℝ)
    (v0 : Fin (k1 + 1) → ℝ) (v1 : Fin (k2 + 1) → ℝ) (a : Fin (k1 + 1)) : ℝ :=
  reduceT T (fun c : {c : Fin (k1 + 1) × Fin (k2 + 1) // c.1 = a} =>
    (logpot c.1.1 c.1.2 + v0 c.1.1 + v1 c.1.2) - v0 a)

/-- The pairwise factor-to-variable kernel towards the second variable. -/
def pairwiseF2v1 (T : ℝ) {k1 k2 : ℕ} (logpot : Fin (k1 + 1) → Fin (k2 + 1) → ℝ)
    (v0 : Fin (k1 + 1) → ℝ) (v1 : Fin (k2 + 1) → ℝ) (b : Fin (k2 + 1)) : ℝ :=
  reduceT T (fun c : {c : Fin (k1 + 1) × Fin (k2 + 1) // c.2 = b} =>
    (logpot c.1.1 c.1.2 + v0 c.1.1 + v1 c.1.2) - v1 b)

/-- The local score of a factor configuration under dual variables `μ`:
the log-potential plus the incoming per-slot dual messages. -/
def factorScore {G : FactorGraph ℝ} (μ : Msgs G) (f : Fin G.numFactors) (c : Cfg G f) : ℝ :=
  G.pot f c + ∑ i, μ f i (c i)

/-- The sum of the dual messages over the edges incident to a variable. -/
def incident {G : FactorGraph ℝ} (μ : Msgs G) (v : Fin G.numVars)
    (x : Fin (G.numStates v + 1)) : ℝ :=
  ∑ e : Edge G,
    (if h : G.var e.1 e.2 = v then μ e.1 e.2 (Fin.cast (by rw [h]) x) else 0)

/-- The dual belief of a variable: its evidence minus the dual messages of
its incident edges, the LP-MAP dual parametrization of the spec. -/
def dualBelief {G : FactorGraph ℝ} (μ : Msgs G) (v : Fin G.numVars)
    (x : Fin (G.numStates v + 1)) : ℝ :=
  G.evid v x - incident μ v x

/-- Modelled from the spec: the smoothed dual objective `D_T(μ)`, the sum
over factors of the `T`-smoothed max of the local scores plus the sum over
variables of the `T`-smoothed max of the dual beliefs. -/
def smoothDual (G : FactorGraph ℝ) (T : ℝ) (μ : Msgs G) : ℝ :=
  (∑ f, reduceT T (fun c : Cfg G f => factorScore μ f c))
    + ∑ v, reduceT T (fun x => dualBelief μ v x)

/-- Modelled from the spec: `get_primal_upper_bound`, the value of the
smoothed dual objective at the current dual variables. -/
def getPrimalUpperBound (G : FactorGraph ℝ) (T : ℝ) (μ : Msgs G) : ℝ :=
  smoothDual G T μ

/-- Modelled from the spec: `get_map_lower_bound`, the (maximization-form)
value of the integer assignment `dec` under the graph's potentials and
evidence. -/
def getMapLowerBound (G : FactorGraph ℝ) (dec : Assignment G) : ℝ :=
  (∑ f, G.pot f (fun i => dec (G.var f i))) + ∑ v, G.evid v (dec v)

/-- A point of the local polytope: per-factor and per-variable distributions
with matching marginals — the feasible points of the LP-MAP relaxation. -/
structure PrimalPoint (G : FactorGraph ℝ) where
  qf : (f : Fin G.numFactors) → Cfg G f → ℝ
  qv : (v : Fin G.numVars) → Fin (G.numStates v + 1) → ℝ
  qf_nonneg : ∀ f c, 0 ≤ qf f c
  qv_nonneg : ∀ v x, 0 ≤ qv v x
  qf_sum : ∀ f, ∑ c, qf f c = 1
  qv_sum : ∀ v, ∑ x, qv v x = 1
  consistent : ∀ (f : Fin G.numFactors) (i : Fin (G.arity f)) x,
    (∑ c : Cfg G f, if c i = x then qf f c else 0) = qv (G.var f i) x

/-- The LP-MAP relaxation objective at a local-polytope point. -/
def lpObjective {G : FactorGraph ℝ} (q : PrimalPoint G) : ℝ :=
  (∑ f, ∑ c : Cfg G f, q.qf f c * G.pot f c) + ∑ v, ∑ x, q.qv v x * G.evid v x

/-- The factor configuration induced by a joint assignment. -/
def decCfg {α : Type} (G : FactorGraph α) (dec : Assignment G) (f : Fin G.numFactors) :
    Cfg G f :=
  fun i => dec (G.var f i)

/-- The integral local-polytope point concentrated on a joint assignment. -/
def integralPoint (G : FactorGraph ℝ) (dec : Assignment G) : PrimalPoint G where
  qf := fun f c => if c = decCfg G dec f then 1 else 0
  qv := fun v x => if x = dec v then 1 else 0
  qf_nonneg := by
    intro f c
    dsimp only
    split <;> norm_num
  qv_nonneg := by
    intro v x
    dsimp only
    split <;> norm_num
  qf_sum := by
    intro f
    dsimp only
    rw [Finset.sum_ite_eq' Finset.univ (decCfg G dec f)]
    simp
  qv_sum := by
    intro v
    dsimp only
    rw [Finset.sum_ite_eq' Finset.univ (dec v)]
    simp
  consistent := by
    intro f i x
    dsimp only
    have hswap : ∀ c : Cfg G f,
        (if c i = x then (if c = decCfg G dec f then (1 : ℝ) else 0) else 0)
          = (if c = decCfg G dec f then (if c i = x then 1 else 0) else 0) := by
      intro c
      by_cases h1 : c i = x <;> by_cases h2 : c = decCfg G dec f <;> simp [h1, h2]
    rw [Finset.sum_congr rfl fun c _ => hswap c,
      Finset.sum_ite_eq' Finset.univ (decCfg G dec f)]
    simp only [Finset.mem_univ, if_true]
    by_cases h : decCfg G dec f i = x
    · rw [if_pos h, if_pos (show x = dec (G.var f i) from h.symm)]
    · rw [if_neg h, if_neg (show ¬x = dec (G.var f i) from fun hx => h hx.symm)]

/-- A minimal factor graph over `ℝ` (one binary variable, no factors), used
to instantiate the duality bounds at a concrete input. -/
def soloGraph : FactorGraph ℝ where
  numVars := 1
  numFactors := 0
  arity := fun f => Fin.elim0 f
  numStates := fun _ => 1
  var := fun f => Fin.elim0 f
  pot := fun f => Fin.elim0 f
  evid := fun _ _ => 0

/-- The empty dual-variable family on `soloGraph`. -/
def soloMsgs : Msgs soloGraph := fun f => Fin.elim0 f

/-- The all-zero assignment on `soloGraph`. -/
def soloDec : Assignment soloGraph := fun _ => 0

end RealKernels

section EngineLemmas

variable {α : Type} [LinearOrderedField α] {G : FactorGraph α}

theorem run_succ (R : Reducer α) (d : α) (k : ℕ) (s : Arena G) :
    run R d (k + 1) s = run R d k (step R d s) := rfl

theorem run_add (R : Reducer α) (d : α) (a b : ℕ) (s : Arena G) :
    run R d (a + b) s = run R d b (run R d a s) := by
  induction a generalizing s with
  | zero => simp [run]
  | succ k ih =>
    rw [Nat.add_right_comm, run_succ, ih (step R d s), ← run_succ]

theorem run_fixpoint {R : Reducer α} {d : α} {s : Arena G} (h : step R d s = s) :
    ∀ n, run R d n s = s := by
  intro n
  induction n with
  | zero => rfl
  | succ k ih => rw [run_succ, h, ih]

omit [LinearOrderedField α] in
theorem arenaExt {a b : Arena G}
    (h1 : ∀ f i x, a.f2v f i x = b.f2v f i x)
    (h2 : ∀ f i x, a.v2f f i x = b.v2f f i x) : a = b := by
  obtain ⟨af, av⟩ := a
  obtain ⟨bf, bv⟩ := b
  congr 1
  · funext f i x
    exact h1 f i x
  · funext f i x
    exact h2 f i x

end EngineLemmas

section ChainLemmas

theorem chainStep0 : step (maxRed ℚ) 0 (initArena chainGraph) = chainS1 :=
  arenaExt (by decide) (by decide)

theorem chainStep1 : step (maxRed ℚ) 0 chainS1 = chainS2 :=
  arenaExt (by decide) (by decide)

theorem chainStep2 : step (maxRed ℚ) 0 chainS2 = chainS2 :=
  arenaExt (by decide) (by decide)

theorem chainRunTwo : run (maxRed ℚ) 0 2 (initArena chainGraph) = chainS2 := by
  show step (maxRed ℚ) 0 (step (maxRed ℚ) 0 (initArena chainGraph)) = chainS2
  rw [chainStep0, chainStep1]

theorem chainRun (n : ℕ) (hn : 2 ≤ n) :
    run (maxRed ℚ) 0 n (initArena chainGraph) = chainS2 := by
  obtain ⟨m, rfl⟩ : ∃ m, n = 2 + m := ⟨n - 2, by omega⟩
  rw [run_add, chainRunTwo, run_fixpoint chainStep2]

/-- C1 (counterexample): on the two-variable chain with the spec's pairwise
log-potential and evidence, BP at temperature 0 for 5 iterations does not
decode to `(a = 0, b = 0)` with compute-energy `−1.1`: the claimed scenario
is false on the modelled engine. -/
theorem c1_counterexample :
    ¬(decodeMapStates (getBeliefs (run (maxRed ℚ) 0 5 (initArena chainGraph))) (0 : Fin 2) = 0 ∧
      decodeMapStates (getBeliefs (run (maxRed ℚ) 0 5 (initArena chainGraph))) (1 : Fin 2) = 0 ∧
      (computeEnergy
        (decodeMapStates (getBeliefs (run (maxRed ℚ) 0 5 (initArena chainGraph))))).1
        = -(11/10)) := by
  rw [chainRun 5 (by norm_num)]
  decide

/-- C1 (amended): on the two-variable chain, BP at temperature 0 for any
number `n ≥ 5` of iterations decodes to `(a = 1, b = 1)`, the joint assignment
of least energy, and the first component of `compute_energy` on that decoding
is `−1.2`. -/
theorem c1_chain_map :
    ∀ n : ℕ, 5 ≤ n →
    decodeMapStates (getBeliefs (run (maxRed ℚ) 0 n (initArena chainGraph))) (0 : Fin 2) = 1 ∧
    decodeMapStates (getBeliefs (run (maxRed ℚ) 0 n (initArena chainGraph))) (1 : Fin 2) = 1 ∧
    (computeEnergy
      (decodeMapStates (getBeliefs (run (maxRed ℚ) 0 n (initArena chainGraph))))).1 = -(6/5) ∧
    ∀ dec : Assignment chainGraph,
      (computeEnergy
        (decodeMapStates (getBeliefs (run (maxRed ℚ) 0 n (initArena chainGraph))))).1
        ≤ (computeEnergy dec).1 := by
  intro n hn
  rw [chainRun n (by omega)]
  exact ⟨by decide, by decide, by decide, by decide⟩

/-- Witness for C1: the amended scenario instantiated at exactly 5 iterations. -/
theorem c1_chain_map_witness :
    5 ≤ 5 ∧
    (decodeMapStates (getBeliefs (run (maxRed ℚ) 0 5 (initArena chainGraph))) (0 : Fin 2) = 1 ∧
     decodeMapStates (getBeliefs (run (maxRed ℚ) 0 5 (initArena chainGraph))) (1 : Fin 2) = 1 ∧
     (computeEnergy
       (decodeMapStates (getBeliefs (run (maxRed ℚ) 0 5 (initArena chainGraph))))).1 = -(6/5) ∧
     ∀ dec : Assignment chainGraph,
       (computeEnergy
         (decodeMapStates (getBeliefs (run (maxRed ℚ) 0 5 (initArena chainGraph))))).1
         ≤ (computeEnergy dec).1) :=
  ⟨by norm_num, c1_chain_map 5 (by norm_num)⟩

end ChainLemmas

section DriverClaims

variable {α : Type} [LinearOrderedField α]

/-- C3: for every arena, damping, reduction (temperature) and iteration
count, `run` returns the arena after exactly `num_iters` applications of the
synchronous iteration `step`; within one iteration the stored
factor-to-variable messages are the damped combination
`(1 − d) * computed + d * old` whose computed part reads only the
variable-to-factor messages `s.v2f` from the end of the previous iteration,
and the subsequent global variable-to-factor update is likewise damped
element-wise. -/
theorem c3_run_structure (G : FactorGraph α) (R : Reducer α) (d : α) (n : ℕ) (s : Arena G) :
    run R d n s = (step R d)^[n] s ∧
    (step R d s).f2v = (fun f i x => (1 - d) * f2vKernel R s.v2f f i x + d * s.f2v f i x) ∧
    (step R d s).v2f = (fun f i x =>
      (1 - d) * (belief (step R d s).f2v (G.var f i) x - (step R d s).f2v f i x)
        + d * s.v2f f i x) := by
  refine ⟨?_, rfl, rfl⟩
  induction n generalizing s with
  | zero => rfl
  | succ k ih => rw [run_succ, ih, Function.iterate_succ_apply]

/-- C7: the checked BP entry point raises `BadTemperature` exactly on a
negative temperature, raises `BadDamping` exactly on a damping outside
`[0, 1)` (checked after the temperature), and otherwise returns the completed
run; a raising call produces no arena, so the pre-call state is the only one
the caller can observe. -/
theorem c7_run_validation (G : FactorGraph α) (redOf : α → Reducer α) (T d : α) (n : ℕ)
    (s : Arena G) :
    (T < 0 → runBP redOf T d n s = Except.error BPError.badTemperature) ∧
    (0 ≤ T → (d < 0 ∨ 1 ≤ d) → runBP redOf T d n s = Except.error BPError.badDamping) ∧
    (0 ≤ T → 0 ≤ d → d < 1 → runBP redOf T d n s = Except.ok (run (redOf T) d n s)) ∧
    ((∃ a, runBP redOf T d n s = Except.ok a) ↔ (0 ≤ T ∧ 0 ≤ d ∧ d < 1)) := by
  unfold runBP
  refine ⟨fun h => by rw [if_pos h], fun hT hd => ?_, fun hT h0 h1 => ?_, ?_⟩
  · rw [if_neg (not_lt.2 hT), if_pos hd]
  · rw [if_neg (not_lt.2 hT), if_neg (by push_neg; exact ⟨h0, h1⟩)]
  · constructor
    · intro ⟨a, ha⟩
      by_cases hT : T < 0
      · rw [if_pos hT] at ha
        exact absurd ha (by simp)
      · by_cases hd : d < 0 ∨ 1 ≤ d
        · rw [if_neg hT, if_pos hd] at ha
          exact absurd ha (by simp)
        · push_neg at hT hd
          exact ⟨hT, hd.1, hd.2⟩
    · intro ⟨hT, h0, h1⟩
      rw [if_neg (not_lt.2 hT), if_neg (by push_neg; exact ⟨h0, h1⟩)]
      exact ⟨_, rfl⟩

/-- Witness for C7: on the two-variable chain with temperature 0 and damping
0, the checked entry point returns the completed run. -/
theorem c7_run_validation_witness :
    (0 : ℚ) ≤ 0 ∧ (0 : ℚ) ≤ 0 ∧ (0 : ℚ) < 1 ∧
    runBP (fun _ => maxRed ℚ) 0 0 1 (initArena chainGraph)
      = Except.ok (run (maxRed ℚ) 0 1 (initArena chainGraph)) :=
  ⟨le_refl 0, le_refl 0, by norm_num,
    (c7_run_validation chainGraph (fun _ => maxRed ℚ) 0 0 1 (initArena chainGraph)).2.2.1
      (le_refl 0) (le_refl 0) (by norm_num)⟩

/-- C9: `run` is a pure function of the arena value: a preceding call whose
result is discarded leaves a later call from the same arena value with the
same result, and mapping `run` then `get_beliefs` over a batch of arenas
equals the elementwise composition. -/
theorem c9_purity (G : FactorGraph α) (R : Reducer α) (d : α) (n1 n2 : ℕ) (s : Arena G)
    (batch : List (Arena G)) :
    runTwiceDiscardFirst R d n1 n2 s = run R d n2 s ∧
    (batch.map (run R d n2)).map getBeliefs
      = batch.map (fun a => getBeliefs (run R d n2 a)) := by
  refine ⟨rfl, ?_⟩
  rw [List.map_map]
  rfl

/-- C10: `compute_energy` returns a tuple, not a bare scalar; its first
element — the one every caller extracts with `[0]` — is the scalar energy of
the decoding, and the remaining elements are the per-variable and per-factor
breakdowns. -/
theorem c10_energy_tuple (G : FactorGraph α) (dec : Assignment G) :
    (computeEnergy dec).1 = energyOf dec ∧
    (computeEnergy dec).2.1 = (fun v => G.evid v (dec v)) ∧
    (computeEnergy dec).2.2 = (fun f => G.pot f (fun i => dec (G.var f i))) :=
  ⟨rfl, rfl, rfl⟩

end DriverClaims

section ShiftInvariance

variable {α : Type} [LinearOrderedField α] {G : FactorGraph α}

theorem maxRed_equivariant (α : Type) [LinearOrderedField α] : Equivariant (maxRed α) := by
  intro ι ft ne g c
  letI := ft
  letI := ne
  show Finset.univ.sup' Finset.univ_nonempty (fun z => g z + c)
      = Finset.univ.sup' Finset.univ_nonempty g + c
  apply le_antisymm
  · exact Finset.sup'_le _ _ fun b _ =>
      add_le_add_right (Finset.le_sup' g (Finset.mem_univ b)) c
  · obtain ⟨b, hb, he⟩ := Finset.exists_mem_eq_sup' Finset.univ_nonempty g
    rw [he]
    exact Finset.le_sup' (fun z => g z + c) hb

theorem f2vKernel_shift {R : Reducer α} (hR : Equivariant R) (m : Msgs G) (ψ : EdgeConst G)
    (f : Fin G.numFactors) (i : Fin (G.arity f)) (x : Fin (G.numStates (G.var f i) + 1)) :
    f2vKernel R (fun f' i' x' => m f' i' x' + ψ f' i') f i x
      = f2vKernel R m f i x + ((∑ j, ψ f j) - ψ f i) := by
  have h : (fun c : {c : Cfg G f // c i = x} =>
        (G.pot f c.1 + ∑ j, (m f j (c.1 j) + ψ f j)) - (m f i x + ψ f i))
      = (fun c : {c : Cfg G f // c i = x} =>
        ((G.pot f c.1 + ∑ j, m f j (c.1 j)) - m f i x) + ((∑ j, ψ f j) - ψ f i)) := by
    funext c
    rw [Finset.sum_add_distrib]
    ring
  exact (congrArg (R.red _ inferInstance inferInstance) h).trans (hR _ _ _ _ _)

theorem belief_shift (m : Msgs G) (φ : EdgeConst G) (v : Fin G.numVars)
    (y : Fin (G.numStates v + 1)) :
    belief (fun f i x => m f i x + φ f i) v y = belief m v y + edgeSum φ v := by
  have h2 : (∑ e : Edge G,
        (if h : G.var e.1 e.2 = v then m e.1 e.2 (Fin.cast (by rw [h]) y) + φ e.1 e.2 else 0))
      = ∑ e : Edge G,
        ((if h : G.var e.1 e.2 = v then m e.1 e.2 (Fin.cast (by rw [h]) y) else 0)
          + (if G.var e.1 e.2 = v then φ e.1 e.2 else 0)) := by
    refine Finset.sum_congr rfl fun e _ => ?_
    by_cases hh : G.var e.1 e.2 = v <;> simp [hh]
  show G.evid v y + (∑ e : Edge G,
      (if h : G.var e.1 e.2 = v then m e.1 e.2 (Fin.cast (by rw [h]) y) + φ e.1 e.2 else 0))
    = belief m v y + edgeSum φ v
  rw [h2, Finset.sum_add_distrib, belief, edgeSum, add_assoc]

theorem stepF2v_shift {R : Reducer α} (hR : Equivariant R) (d : α) (φ ψ : EdgeConst G)
    (s : Arena G) :
    stepF2v R d (shiftA φ ψ s)
      = fun f i x => stepF2v R d s f i x + shiftedF2v d φ ψ f i := by
  funext f i x
  show (1 - d) * f2vKernel R (fun f' i' x' => s.v2f f' i' x' + ψ f' i') f i x
      + d * (s.f2v f i x + φ f i) = _
  rw [f2vKernel_shift hR]
  show _ = (1 - d) * f2vKernel R s.v2f f i x + d * s.f2v f i x
      + ((1 - d) * ((∑ j, ψ f j) - ψ f i) + d * φ f i)
  ring

theorem step_shift {R : Reducer α} (hR : Equivariant R) (d : α) (φ ψ : EdgeConst G)
    (s : Arena G) :
    step R d (shiftA φ ψ s) = shiftA (shiftedF2v d φ ψ) (shiftedV2f d φ ψ) (step R d s) := by
  apply arenaExt
  · intro f i x
    show stepF2v R d (shiftA φ ψ s) f i x = stepF2v R d s f i x + shiftedF2v d φ ψ f i
    rw [stepF2v_shift hR]
  · intro f i x
    show (1 - d) * (belief (stepF2v R d (shiftA φ ψ s)) (G.var f i) x
          - stepF2v R d (shiftA φ ψ s) f i x) + d * (s.v2f f i x + ψ f i)
        = (1 - d) * (belief (stepF2v R d s) (G.var f i) x - stepF2v R d s f i x)
          + d * s.v2f f i x + shiftedV2f d φ ψ f i
    rw [stepF2v_shift hR, belief_shift, shiftedV2f]
    ring

theorem run_shift {R : Reducer α} (hR : Equivariant R) (d : α) (n : ℕ) :
    ∀ (s : Arena G) (φ ψ : EdgeConst G), ∃ φ' ψ' : EdgeConst G,
      run R d n (shiftA φ ψ s) = shiftA φ' ψ' (run R d n s) := by
  induction n with
  | zero => exact fun s φ ψ => ⟨φ, ψ, rfl⟩
  | succ k ih =>
    intro s φ ψ
    rw [run_succ, step_shift hR]
    obtain ⟨φ', ψ', h⟩ := ih (step R d s) (shiftedF2v d φ ψ) (shiftedV2f d φ ψ)
    exact ⟨φ', ψ', by rw [h, run_succ]⟩

theorem argmaxLow_shift {n : ℕ} (g : Fin (n + 1) → α) (c : α) :
    argmaxLow (fun x => g x + c) = argmaxLow g := by
  have key : ∀ (s t : Finset (Fin (n + 1))) (hs : s.Nonempty) (ht : t.Nonempty),
      s = t → s.min' hs = t.min' ht := by
    rintro s t hs ht rfl
    rfl
  refine key _ _ _ _ ?_
  refine Finset.filter_congr fun x _ => ?_
  simp [add_le_add_iff_right]

theorem decode_shift (φ ψ : EdgeConst G) (s : Arena G) :
    decodeMapStates (getBeliefs (shiftA φ ψ s)) = decodeMapStates (getBeliefs s) := by
  funext v
  show argmaxLow (getBeliefs (shiftA φ ψ s) v) = argmaxLow (getBeliefs s v)
  have hb : getBeliefs (shiftA φ ψ s) v = fun x => getBeliefs s v x + edgeSum φ v := by
    funext x
    exact belief_shift s.f2v φ v x
  rw [hb]
  exact argmaxLow_shift (getBeliefs s v) (edgeSum φ v)

theorem bump_as_shift (e0 : Edge G) (c : α) (s : Arena G) :
    bumpV2f e0 c s
      = shiftA (fun _ _ => 0) (fun f i => if (⟨f, i⟩ : Edge G) = e0 then c else 0) s :=
  arenaExt (fun _ _ _ => (add_zero _).symm) (fun _ _ _ => rfl)

/-- C5: adding any constant `c` to every entry of the single
variable-to-factor message of any edge `e0`, then running any number of
further damped BP iterations with any translation-equivariant reduction
(max-product or any-temperature log-sum-exp), leaves the decoded per-variable
argmax of beliefs unchanged. -/
theorem c5_shift_invariance (G : FactorGraph α) (R : Reducer α) (hR : Equivariant R)
    (d c : α) (n : ℕ) (s : Arena G) (e0 : Edge G) :
    decodeMapStates (getBeliefs (run R d n (bumpV2f e0 c s)))
      = decodeMapStates (getBeliefs (run R d n s)) := by
  rw [bump_as_shift]
  obtain ⟨φ', ψ', h⟩ := run_shift hR d n s (fun _ _ => 0)
    (fun f i => if (⟨f, i⟩ : Edge G) = e0 then c else 0)
  rw [h]
  exact decode_shift φ' ψ' (run R d n s)

/-- Witness for C5: on the two-variable chain with the max-product reduction,
bumping one edge's message by 1 leaves the decoding after one iteration
unchanged. -/
theorem c5_shift_invariance_witness :
    Equivariant (maxRed ℚ) ∧
    decodeMapStates (getBeliefs (run (maxRed ℚ) 0 1
        (bumpV2f ⟨(0 : Fin 1), (0 : Fin 2)⟩ 1 (initArena chainGraph))))
      = decodeMapStates (getBeliefs (run (maxRed ℚ) 0 1 (initArena chainGraph))) :=
  ⟨maxRed_equivariant ℚ,
    c5_shift_invariance chainGraph (maxRed ℚ) (maxRed_equivariant ℚ) 0 1 1
      (initArena chainGraph) ⟨(0 : Fin 1), (0 : Fin 2)⟩⟩

end ShiftInvariance

section ORKernelClaims

/-- C2: at the failing input — an OR factor with two parents whose incoming
messages are both `(0, 1)` (so both differentials are `+1`), child message
`(0, 0)`, temperature `0` — the spec's specialized child-side "on" formula
`A + softplus_0 (max_i d_i)` yields `1`, while the enumerated kernel over the
`2^{n+1}` OR table yields `2`; the gap `1` exceeds the claimed `1e−5`
tolerance, contradicting the spec's own kernel-parity property. -/
theorem c2_or_kernel_mismatch :
    orSpecChildOn (![0, 0] : Fin 2 → ℚ) ![1, 1] = 1 ∧
    orEnumChild (![0, 0] : Fin 2 → ℚ) ![1, 1] ![0, 0] 1 = 2 ∧
    1 / 100000 < orEnumChild (![0, 0] : Fin 2 → ℚ) ![1, 1] ![0, 0] 1
      - orSpecChildOn (![0, 0] : Fin 2 → ℚ) ![1, 1] :=
  ⟨by decide, by decide, by decide⟩

end ORKernelClaims

section PairwiseClaims

theorem reduceT_reindex {ι κ : Type} [Fintype ι] [Nonempty ι] [Fintype κ] [Nonempty κ]
    (T : ℝ) (e : κ ≃ ι) (g : ι → ℝ) : reduceT T g = reduceT T (fun k => g (e k)) := by
  unfold reduceT
  split
  · apply le_antisymm
    · refine Finset.sup'_le _ _ fun b _ => ?_
      have h := Finset.le_sup' (fun k => g (e k)) (Finset.mem_univ (e.symm b))
      simpa using h
    · exact Finset.sup'_le _ _ fun k _ => Finset.le_sup' g (Finset.mem_univ (e k))
  · have hs : (∑ i, Real.exp (g i / T)) = ∑ k, Real.exp (g (e k) / T) :=
      (Fintype.sum_equiv e (fun k => Real.exp (g (e k) / T)) (fun i => Real.exp (g i / T))
        fun k => rfl).symm
    rw [hs]

/-- C4: the pairwise factor-to-variable kernel computes, for each output
state of either variable, the reduction over the other variable's states of
`log_pot[a,b] + v2f_0[a] + v2f_1[b]` minus the output variable's own message,
where the reduction is the max at temperature 0 and the temperature-`T`
log-sum-exp otherwise. -/
theorem c4_pairwise_kernel (T : ℝ) (k1 k2 : ℕ)
    (logpot : Fin (k1 + 1) → Fin (k2 + 1) → ℝ)
    (v0 : Fin (k1 + 1) → ℝ) (v1 : Fin (k2 + 1) → ℝ) :
    (∀ a, pairwiseF2v0 T logpot v0 v1 a
      = if T = 0 then
          Finset.univ.sup' Finset.univ_nonempty
            (fun b => logpot a b + v0 a + v1 b - v0 a)
        else T * Real.log (∑ b, Real.exp ((logpot a b + v0 a + v1 b - v0 a) / T))) ∧
    (∀ b, pairwiseF2v1 T logpot v0 v1 b
      = if T = 0 then
          Finset.univ.sup' Finset.univ_nonempty
            (fun a => logpot a b + v0 a + v1 b - v1 b)
        else T * Real.log (∑ a, Real.exp ((logpot a b + v0 a + v1 b - v1 b) / T))) := by
  constructor
  · intro a
    rw [pairwiseF2v0, reduceT_reindex T
      (⟨fun b => ⟨(a, b), rfl⟩, fun c => c.1.2,
        fun b => rfl,
        fun c => by
          obtain ⟨⟨a', b⟩, hq⟩ := c
          cases hq
          rfl⟩ : Fin (k2 + 1) ≃ {c : Fin (k1 + 1) × Fin (k2 + 1) // c.1 = a})
      (fun c : {c : Fin (k1 + 1) × Fin (k2 + 1) // c.1 = a} =>
        (logpot c.1.1 c.1.2 + v0 c.1.1 + v1 c.1.2) - v0 a), reduceT]
    rfl
  · intro b
    rw [pairwiseF2v1, reduceT_reindex T
      (⟨fun a => ⟨(a, b), rfl⟩, fun c => c.1.1,
        fun a => rfl,
        fun c => by
          obtain ⟨⟨a, b'⟩, hq⟩ := c
          cases hq
          rfl⟩ : Fin (k1 + 1) ≃ {c : Fin (k1 + 1) × Fin (k2 + 1) // c.2 = b})
      (fun c : {c : Fin (k1 + 1) × Fin (k2 + 1) // c.2 = b} =>
        (logpot c.1.1 c.1.2 + v0 c.1.1 + v1 c.1.2) - v1 b), reduceT]
    rfl

end PairwiseClaims

section DualityClaims

theorem prob_avg_le_sup {ι : Type} [Fintype ι] [Nonempty ι] (q g : ι → ℝ)
    (h0 : ∀ i, 0 ≤ q i) (h1 : ∑ i, q i = 1) :
    (∑ i, q i * g i) ≤ Finset.univ.sup' Finset.univ_nonempty g := by
  calc (∑ i, q i * g i)
      ≤ ∑ i, q i * Finset.univ.sup' Finset.univ_nonempty g :=
        Finset.sum_le_sum fun i _ =>
          mul_le_mul_of_nonneg_left (Finset.le_sup' g (Finset.mem_univ i)) (h0 i)
    _ = (∑ i, q i) * Finset.univ.sup' Finset.univ_nonempty g := (Finset.sum_mul _ _ _).symm
    _ = Finset.univ.sup' Finset.univ_nonempty g := by rw [h1, one_mul]

theorem sup_le_reduceT {ι : Type} [Fintype ι] [Nonempty ι] {T : ℝ} (hT : 0 ≤ T) (g : ι → ℝ) :
    Finset.univ.sup' Finset.univ_nonempty g ≤ reduceT T g := by
  rcases eq_or_lt_of_le hT with h0 | hpos
  · rw [reduceT, if_pos h0.symm]
  · have hne : T ≠ 0 := ne_of_gt hpos
    rw [reduceT, if_neg hne]
    obtain ⟨b, hb, he⟩ := Finset.exists_mem_eq_sup' Finset.univ_nonempty g
    rw [he]
    have h1 : Real.exp (g b / T) ≤ ∑ i, Real.exp (g i / T) :=
      Finset.single_le_sum (fun i _ => (Real.exp_pos (g i / T)).le) (Finset.mem_univ b)
    have h2 : g b / T ≤ Real.log (∑ i, Real.exp (g i / T)) := by
      rw [← Real.log_exp (g b / T)]
      exact Real.log_le_log (Real.exp_pos _) h1
    calc g b = T * (g b / T) := by
          rw [mul_comm, div_mul_cancel₀ _ hne]
      _ ≤ T * Real.log (∑ i, Real.exp (g i / T)) := mul_le_mul_of_nonneg_left h2 hT

theorem sum_fiber_sum {ι κ : Type} [Fintype ι] [Fintype κ] [DecidableEq κ]
    (gix : ι → κ) (F : ι → ℝ) :
    (∑ i, F i) = ∑ x, ∑ i, if gix i = x then F i else 0 := by
  rw [Finset.sum_comm]
  refine Finset.sum_congr rfl fun i _ => ?_
  rw [Finset.sum_ite_eq Finset.univ (gix i) (fun _ => F i)]
  simp

theorem lp_telescope {G : FactorGraph ℝ} (q : PrimalPoint G) (μ : Msgs G) :
    (∑ f, ∑ c : Cfg G f, q.qf f c * (∑ i, μ f i (c i)))
      = ∑ v, ∑ x, q.qv v x * incident μ v x := by
  have lhs1 : ∀ f, (∑ c : Cfg G f, q.qf f c * ∑ i, μ f i (c i))
      = ∑ i, ∑ x, q.qv (G.var f i) x * μ f i x := by
    intro f
    calc (∑ c : Cfg G f, q.qf f c * ∑ i, μ f i (c i))
        = ∑ c : Cfg G f, ∑ i, q.qf f c * μ f i (c i) :=
          Finset.sum_congr rfl fun c _ => Finset.mul_sum _ _ _
      _ = ∑ i, ∑ c : Cfg G f, q.qf f c * μ f i (c i) := Finset.sum_comm
      _ = ∑ i, ∑ x, ∑ c : Cfg G f, if c i = x then q.qf f c * μ f i (c i) else 0 :=
          Finset.sum_congr rfl fun i _ => sum_fiber_sum (fun c : Cfg G f => c i) _
      _ = ∑ i, ∑ x, (∑ c : Cfg G f, if c i = x then q.qf f c else 0) * μ f i x := by
          refine Finset.sum_congr rfl fun i _ => Finset.sum_congr rfl fun x _ => ?_
          rw [Finset.sum_mul]
          refine Finset.sum_congr rfl fun c _ => ?_
          by_cases h : c i = x
          · rw [if_pos h, if_pos h, h]
          · rw [if_neg h, if_neg h, zero_mul]
      _ = ∑ i, ∑ x, q.qv (G.var f i) x * μ f i x := by
          refine Finset.sum_congr rfl fun i _ => Finset.sum_congr rfl fun x _ => ?_
          rw [q.consistent f i x]
  have rhs1 : (∑ v, ∑ x, q.qv v x * incident μ v x)
      = ∑ e : Edge G, ∑ x, q.qv (G.var e.1 e.2) x * μ e.1 e.2 x := by
    calc (∑ v, ∑ x, q.qv v x * incident μ v x)
        = ∑ v, ∑ x, ∑ e : Edge G, q.qv v x *
            (if h : G.var e.1 e.2 = v then μ e.1 e.2 (Fin.cast (by rw [h]) x) else 0) :=
          Finset.sum_congr rfl fun v _ => Finset.sum_congr rfl fun x _ =>
            Finset.mul_sum _ _ _
      _ = ∑ v, ∑ e : Edge G, ∑ x, q.qv v x *
            (if h : G.var e.1 e.2 = v then μ e.1 e.2 (Fin.cast (by rw [h]) x) else 0) :=
          Finset.sum_congr rfl fun v _ => Finset.sum_comm
      _ = ∑ e : Edge G, ∑ v, ∑ x, q.qv v x *
            (if h : G.var e.1 e.2 = v then μ e.1 e.2 (Fin.cast (by rw [h]) x) else 0) :=
          Finset.sum_comm
      _ = ∑ e : Edge G, ∑ x, q.qv (G.var e.1 e.2) x * μ e.1 e.2 x := by
          refine Finset.sum_congr rfl fun e _ => ?_
          rw [Finset.sum_eq_single (G.var e.1 e.2)]
          · refine Finset.sum_congr rfl fun x _ => ?_
            rw [dif_pos rfl]
            rfl
          · intro v _ hv
            exact Finset.sum_eq_zero fun x _ => by
              rw [dif_neg fun hh => hv hh.symm, mul_zero]
          · intro hmem
            exact absurd (Finset.mem_univ _) hmem
  calc (∑ f, ∑ c : Cfg G f, q.qf f c * (∑ i, μ f i (c i)))
      = ∑ f, ∑ i, ∑ x, q.qv (G.var f i) x * μ f i x :=
        Finset.sum_congr rfl fun f _ => lhs1 f
    _ = ∑ e : Edge G, ∑ x, q.qv (G.var e.1 e.2) x * μ e.1 e.2 x := by
        rw [← Finset.univ_sigma_univ, Finset.sum_sigma]
    _ = ∑ v, ∑ x, q.qv v x * incident μ v x := rhs1.symm

theorem lp_weak_duality {G : FactorGraph ℝ} {T : ℝ} (hT : 0 ≤ T) (q : PrimalPoint G)
    (μ : Msgs G) : lpObjective q ≤ smoothDual G T μ := by
  have key : lpObjective q
      = (∑ f, ∑ c : Cfg G f, q.qf f c * factorScore μ f c)
        + ∑ v, ∑ x, q.qv v x * dualBelief μ v x := by
    unfold lpObjective factorScore dualBelief
    simp only [mul_add, mul_sub, Finset.sum_add_distrib, Finset.sum_sub_distrib]
    rw [lp_telescope q μ]
    ring
  rw [key]
  refine add_le_add (Finset.sum_le_sum fun f _ => ?_) (Finset.sum_le_sum fun v _ => ?_)
  · exact (prob_avg_le_sup (q.qf f) (factorScore μ f) (q.qf_nonneg f) (q.qf_sum f)).trans
      (sup_le_reduceT hT _)
  · exact (prob_avg_le_sup (q.qv v) (dualBelief μ v) (q.qv_nonneg v) (q.qv_sum v)).trans
      (sup_le_reduceT hT _)

theorem lp_integral_value {G : FactorGraph ℝ} (dec : Assignment G) :
    lpObjective (integralPoint G dec) = getMapLowerBound G dec := by
  unfold lpObjective integralPoint getMapLowerBound
  dsimp only
  congr 1
  · refine Finset.sum_congr rfl fun f _ => ?_
    have h : ∀ c : Cfg G f,
        (if c = decCfg G dec f then (1 : ℝ) else 0) * G.pot f c
          = if c = decCfg G dec f then G.pot f c else 0 := by
      intro c
      by_cases h : c = decCfg G dec f
      · rw [if_pos h, if_pos h, one_mul]
      · rw [if_neg h, if_neg h, zero_mul]
    rw [Finset.sum_congr rfl fun c _ => h c,
      Finset.sum_ite_eq' Finset.univ (decCfg G dec f)]
    simp only [Finset.mem_univ, if_true]
    rfl
  · refine Finset.sum_congr rfl fun v _ => ?_
    have h : ∀ x, (if x = dec v then (1 : ℝ) else 0) * G.evid v x
        = if x = dec v then G.evid v x else 0 := by
      intro x
      by_cases h : x = dec v
      · rw [if_pos h, if_pos h, one_mul]
      · rw [if_neg h, if_neg h, zero_mul]
    rw [Finset.sum_congr rfl fun x _ => h x, Finset.sum_ite_eq' Finset.univ (dec v)]
    simp only [Finset.mem_univ, if_true]

/-- C6: the smoothed-dual bounds sandwich the LP-MAP optimum — for any
temperature `T ≥ 0`, dual variables `μ` and decoding: every local-polytope
point's LP objective is at most `get_primal_upper_bound`, the integral point
concentrated on the decoding is feasible with objective exactly
`get_map_lower_bound`, and hence the lower bound is at most the upper
bound. -/
theorem c6_sdlp_duality (G : FactorGraph ℝ) (T : ℝ) (hT : 0 ≤ T) (μ : Msgs G)
    (dec : Assignment G) :
    (∀ q : PrimalPoint G, lpObjective q ≤ getPrimalUpperBound G T μ) ∧
    lpObjective (integralPoint G dec) = getMapLowerBound G dec ∧
    getMapLowerBound G dec ≤ getPrimalUpperBound G T μ := by
  refine ⟨fun q => lp_weak_duality hT q μ, lp_integral_value dec, ?_⟩
  rw [← lp_integral_value dec]
  exact lp_weak_duality hT (integralPoint G dec) μ

/-- Witness for C6: the duality sandwich instantiated on the one-variable
factor graph at temperature 0 with zero dual variables. -/
theorem c6_sdlp_duality_witness :
    (0 : ℝ) ≤ 0 ∧
    ((∀ q : PrimalPoint soloGraph, lpObjective q ≤ getPrimalUpperBound soloGraph 0 soloMsgs) ∧
     lpObjective (integralPoint soloGraph soloDec) = getMapLowerBound soloGraph soloDec ∧
     getMapLowerBound soloGraph soloDec ≤ getPrimalUpperBound soloGraph 0 soloMsgs) :=
  ⟨le_refl 0, c6_sdlp_duality soloGraph 0 (le_refl 0) soloMsgs soloDec⟩

end DualityClaims
